import Mathlib

/-!
Verification development for the Strashun library data pipeline.

The Python sources (src/data/prepare_data.py, src/data/verifier_final.py,
src/data/strashun_verifier.py, src/prototype-2/prepare_clean_data.py) are
shallowly embedded below.  Strings are modelled as lists of characters,
missing cells (pandas NaN / None) as Option, dataframe columns as lists.
-/

namespace Strashun

/-! ## Character and string helpers -/

/-- Decide whether a character is an ASCII digit. -/
def isDigitB (c : Char) : Bool := 48 ≤ c.toNat && c.toNat ≤ 57

/-- Numeric value of an ASCII digit character. -/
def digitVal (c : Char) : Nat := c.toNat - 48

/-- The ASCII digit character for a value below ten. -/
def digitChar (n : Nat) : Char := Char.ofNat (48 + n)

/-- Parse a nonempty all-digit token to a natural number, as Python int /
pandas numeric parsing does on a clean digit string. -/
def parseDigits (cs : List Char) : Option Nat :=
  if cs ≠ [] ∧ cs.all isDigitB then
    some (cs.foldl (fun a c => 10 * a + digitVal c) 0)
  else none

/-- Whitespace characters as Python str.strip and the pandas numeric
parser treat them. -/
def isSpaceB (c : Char) : Bool := c == ' ' || c == '\t' || c == '\n' || c == '\r'

/-- str.strip: drop whitespace at both ends. -/
def trimChars (cs : List Char) : List Char :=
  ((cs.dropWhile isSpaceB).reverse.dropWhile isSpaceB).reverse

/-- One step of separator splitting, folded from the right. -/
def splitStep (seps : List Char) (c : Char) (acc : List (List Char)) :
    List (List Char) :=
  if c ∈ seps then [] :: acc
  else
    match acc with
    | [] => [[c]]
    | g :: gs => (c :: g) :: gs

/-- Split a character list on any of the given separator characters,
keeping empty fields (mirrors how a date string is tokenised). -/
def splitAny (seps : List Char) (cs : List Char) : List (List Char) :=
  cs.foldr (splitStep seps) [[]]

/-! ## Calendar dates (the target of pandas to_datetime) -/

/-- A parsed calendar date. -/
structure YMD where
  year : Nat
  month : Nat
  day : Nat
deriving DecidableEq, Repr

/-- Gregorian leap-year rule, as the datetime library applies it. -/
def isLeap (y : Nat) : Bool := y % 4 == 0 && (y % 100 != 0 || y % 400 == 0)

/-- Days in a month of a given year. -/
def daysInMonth (y m : Nat) : Nat :=
  if m = 2 then (if isLeap y then 29 else 28)
  else if m = 4 ∨ m = 6 ∨ m = 9 ∨ m = 11 then 30
  else 31

/-- Validity of a calendar date for pandas Timestamp conversion.  The year
bounds approximate the nanosecond Timestamp range (Timestamp.min is in
1677, Timestamp.max in 2262; we keep the fully-covered years), outside of
which pd.to_datetime with errors set to coerce yields NaT. -/
def validYMD (y m d : Nat) : Bool :=
  1678 ≤ y && y ≤ 2261 && 1 ≤ m && m ≤ 12 && 1 ≤ d && d ≤ daysInMonth y m

/-- Field order of an explicit strptime-style date format. -/
inductive FieldOrder where
  | dmy : FieldOrder
  | ymd : FieldOrder
  | mdy : FieldOrder
deriving DecidableEq, Repr

/-- An explicit date format: a separator character and a field order. -/
structure DateFormat where
  sep : Char
  order : FieldOrder
deriving DecidableEq, Repr

/-- The ordered format list of standardize_dates in
src/data/prepare_data.py: d/m/Y, Y-m-d, m/d/Y, d.m.Y, Y/m/d, d-m-Y. -/
def formats : List DateFormat :=
  [⟨'/', .dmy⟩, ⟨'-', .ymd⟩, ⟨'/', .mdy⟩, ⟨'.', .dmy⟩, ⟨'/', .ymd⟩, ⟨'-', .dmy⟩]

/-- A day or month token: one or two digits. -/
def dmTok (cs : List Char) : Bool :=
  decide (cs.length = 1 ∨ cs.length = 2) && cs.all isDigitB

/-- A year token: up to four digits (strptime %Y), nonempty. -/
def yTok (cs : List Char) : Bool :=
  decide (1 ≤ cs.length ∧ cs.length ≤ 4) && cs.all isDigitB

/-- Token value, defaulting to zero (callers guard with dmTok / yTok). -/
def tokVal (cs : List Char) : Nat := (parseDigits cs).getD 0

/-- Parse a string against one explicit format, as pd.to_datetime with a
fixed format string and coercing errors does: exact three-field shape,
then calendar validation. -/
def parseWith (f : DateFormat) (cs : List Char) : Option YMD :=
  match splitAny [f.sep] cs with
  | [a, b, c] =>
    match f.order with
    | .dmy =>
      if dmTok a && dmTok b && yTok c && validYMD (tokVal c) (tokVal b) (tokVal a)
      then some ⟨tokVal c, tokVal b, tokVal a⟩ else none
    | .ymd =>
      if yTok a && dmTok b && dmTok c && validYMD (tokVal a) (tokVal b) (tokVal c)
      then some ⟨tokVal a, tokVal b, tokVal c⟩ else none
    | .mdy =>
      if dmTok a && dmTok b && yTok c && validYMD (tokVal c) (tokVal a) (tokVal b)
      then some ⟨tokVal c, tokVal a, tokVal b⟩ else none
  | _ => none

/-- The default pandas inference pass (pd.to_datetime with errors coerced
and dayfirst set): tokenise on the common separators; a leading four-digit
token is the year (year-month-day reading); otherwise the trailing token
is a four-digit year and the day-before-month reading is preferred, with
the month-day reading as dateutil fallback when the first is invalid.
Two-digit-year century windowing is not modelled. -/
def inferDate (cs : List Char) : Option YMD :=
  match splitAny ['/', '-', '.'] cs with
  | [a, b, c] =>
    if a.length = 4 && a.all isDigitB && dmTok b && dmTok c then
      if validYMD (tokVal a) (tokVal b) (tokVal c)
      then some ⟨tokVal a, tokVal b, tokVal c⟩ else none
    else if dmTok a && dmTok b && c.length = 4 && c.all isDigitB then
      if validYMD (tokVal c) (tokVal b) (tokVal a)
      then some ⟨tokVal c, tokVal b, tokVal a⟩
      else if validYMD (tokVal c) (tokVal a) (tokVal b)
      then some ⟨tokVal c, tokVal a, tokVal b⟩ else none
    else none
  | _ => none

/-- Per-value semantics of the standardize_dates loop in
src/data/prepare_data.py: start from the default inference pass, then for
each format in order fill in only values that are still unresolved. -/
def standardizeDate (cs : List Char) : Option YMD :=
  formats.foldl
    (fun acc f => if acc.isSome then acc else parseWith f cs)
    (inferDate cs)

/-- The first successful result in a list of attempts. -/
def firstSome : List (Option YMD) → Option YMD
  | [] => none
  | o :: rest =>
    match o with
    | some v => some v
    | none => firstSome rest

/-- Zero padding to two digits, as strftime with %m and %d emits. -/
def pad2 (n : Nat) : List Char := [digitChar (n / 10), digitChar (n % 10)]

/-- Zero padding to four digits, as strftime with %Y emits. -/
def pad4 (n : Nat) : List Char :=
  [digitChar (n / 1000), digitChar (n / 100 % 10),
   digitChar (n / 10 % 10), digitChar (n % 10)]

/-- Render a date in the ISO output shape of standardize_dates. -/
def formatISO (d : YMD) : List Char :=
  pad4 d.year ++ '-' :: (pad2 d.month ++ '-' :: pad2 d.day)

/-- The full string-to-string normalizer: parse, then reformat, else null. -/
def normalizeStr (cs : List Char) : Option (List Char) :=
  (standardizeDate cs).map formatISO

/-! ## Book identity resolution (load_and_prepare_ledgers /
create_clean_library_json) -/

/-- A raw cell: missing (NaN) or a string value. -/
abbrev RawCell := Option (List Char)

/-- A dataframe column: its header name and its cells. -/
structure Column where
  name : List Char
  values : List (Option Int)
deriving DecidableEq, Repr

/-- A dataframe: a row count and the columns. -/
structure Table where
  nrows : Nat
  cols : List Column
deriving DecidableEq, Repr

/-- Contiguous-substring test, Python in-operator on strings. -/
def leadsWith : List Char → List Char → Bool
  | [], _ => true
  | _ :: _, [] => false
  | a :: as, b :: bs => a == b && leadsWith as bs

/-- Whether needle occurs contiguously inside hay. -/
def containsSeg (hay needle : List Char) : Bool :=
  match hay with
  | [] => needle.isEmpty
  | _ :: rest => leadsWith needle hay || containsSeg rest needle

/-- Keyword score: the count of hint keywords occurring in the lowercased
column name. -/
def keywordScore (keywords : List (List Char)) (nameLower : List Char) : Nat :=
  keywords.countP (fun kw => containsSeg nameLower kw)

/-- Disqualification: some exclusion keyword occurs in the lowercased
column name. -/
def isExcluded (excl : List (List Char)) (nameLower : List Char) : Bool :=
  excl.any (fun e => containsSeg nameLower e)

/-- Number of non-null cells of a column. -/
def nonNullCount (c : Column) : Nat := c.values.countP Option.isSome

/-- Non-null fraction of a column within its table (notna sum over the
dataframe length; on a zero-row table numpy yields nan and every
comparison on it is false, which the zero value of rational division by
zero reproduces behaviourally: all fractions tie). -/
def nonNullFrac (t : Table) (c : Column) : ℚ := (nonNullCount c : ℚ) / t.nrows

/-- A scored candidate column (the diagnostic unique-value fields of the
Python dict do not enter the choice and are omitted). -/
structure Candidate where
  column : Column
  keyword_score : Nat
  frac : ℚ
deriving DecidableEq, Repr

/-- Scoring of one column inside find_best_column: excluded columns are
skipped, a column enters the candidate list only with a positive keyword
score. -/
def scoreCol (t : Table) (keywords excl : List (List Char)) (col : Column) :
    Option Candidate :=
  let low := col.name.map Char.toLower
  if isExcluded excl low then none
  else
    let s := keywordScore keywords low
    if 0 < s then some ⟨col, s, nonNullFrac t col⟩ else none

/-- Scoring pass of find_best_column over all columns. -/
def candidatesOf (t : Table) (keywords excl : List (List Char)) :
    List Candidate :=
  t.cols.filterMap (scoreCol t keywords excl)

/-- Strict lexicographic comparison on the sort key of find_best_column. -/
def keyLt (a b : Candidate) : Bool :=
  a.keyword_score < b.keyword_score ||
    (a.keyword_score == b.keyword_score && a.frac < b.frac)

/-- find_best_column of src/data/strashun_verifier.py: no candidate gives
the unresolved marker; otherwise the head of the stable descending sort by
(keyword score, non-null fraction), i.e. the leftmost maximal candidate. -/
def find_best_column (t : Table) (keywords excl : List (List Char)) :
    Option Candidate :=
  match candidatesOf t keywords excl with
  | [] => none
  | c :: rest => some (rest.foldl (fun acc d => if keyLt acc d then d else acc) c)

/-! ## Gender assignment (load_and_prepare_ledgers) -/

/-- str.strip().lower() on a cell. -/
def stripLower (cs : List Char) : List Char := (trimChars cs).map Char.toLower

/-- The gender lambda on one marker cell: W when the stripped lowercased
value is x, f or female; otherwise M, and M also for a missing marker
(str of NaN is the text nan, which is not in the list, and both arms of
the trailing conditional are M anyway). -/
def genderOf (marker : RawCell) : String :=
  match marker with
  | none => "M"
  | some s =>
    if stripLower s = ['x'] ∨ stripLower s = ['f'] ∨
       stripLower s = ['f', 'e', 'm', 'a', 'l', 'e'] then "W" else "M"

/-- Column-level gender assignment: map the lambda when the marker column
is present, else the whole column is Unknown. -/
def assignGender (hasMarkerCol : Bool) (markers : List RawCell) (n : Nat) :
    List String :=
  if hasMarkerCol then markers.map genderOf
  else List.replicate n "Unknown"

/-! ## Borrower profile accumulation (create_borrowers_list) -/

/-- The per-transaction record built inside create_borrowers_list. -/
structure TransData where
  transaction_id : Option Int
  book_id : Option Int
  book_name : Option (List Char)
  date : Option (List Char)
  return_date : Option (List Char)
  year : Option Int
deriving DecidableEq, Repr

/-- Python truthiness of a nullable integer: None and 0 are falsy. -/
def truthyInt : Option Int → Bool
  | none => false
  | some n => n != 0

/-- Lexicographic string comparison, the Python less-than on the ISO date
strings that drives the first-seen and last-seen updates. -/
def lexLt : List Char → List Char → Bool
  | [], [] => false
  | [], _ :: _ => true
  | _ :: _, [] => false
  | a :: as, b :: bs =>
    if a.toNat < b.toNat then true
    else if a.toNat = b.toNat then lexLt as bs
    else false

/-- Bump a month count in the insertion-ordered histogram dict: an
existing key keeps its position, a new key is appended. -/
def bumpMonth (hist : List (Nat × Nat)) (m : Nat) : List (Nat × Nat) :=
  match hist with
  | [] => [(m, 1)]
  | (k, v) :: rest =>
    if k = m then (k, v + 1) :: rest else (k, v) :: bumpMonth rest m

/-- Month of a stored date string via the datetime parse the loop uses
(a failed parse is swallowed by the bare except). -/
def monthOf (date : Option (List Char)) : Option Nat :=
  (date.bind inferDate).map YMD.month

/-- Mutable borrower state accumulated over the transaction loop. -/
structure BorrowerAcc where
  gender : String
  first_seen : Option (List Char)
  last_seen : Option (List Char)
  transactions : List TransData
  unique_books : Finset Int
  years_active : Finset Int
  favorite_months : List (Nat × Nat)
deriving DecidableEq

/-- first_seen update: a present date replaces a missing first_seen or an
older one. -/
def updFirst (cur : Option (List Char)) (d : Option (List Char)) :
    Option (List Char) :=
  match d with
  | none => cur
  | some ds =>
    match cur with
    | none => some ds
    | some cs => if lexLt ds cs then some ds else some cs

/-- last_seen update, symmetric. -/
def updLast (cur : Option (List Char)) (d : Option (List Char)) :
    Option (List Char) :=
  match d with
  | none => cur
  | some ds =>
    match cur with
    | none => some ds
    | some cs => if lexLt cs ds then some ds else some cs

/-- One iteration of the create_borrowers_list loop body on an existing
borrower: append the transaction, add truthy book id and year to the sets,
bump the month histogram, widen the seen range. -/
def addTransaction (b : BorrowerAcc) (t : TransData) : BorrowerAcc :=
  { b with
    transactions := b.transactions ++ [t]
    unique_books :=
      if truthyInt t.book_id then insert (t.book_id.getD 0) b.unique_books
      else b.unique_books
    years_active :=
      if truthyInt t.year then insert (t.year.getD 0) b.years_active
      else b.years_active
    favorite_months :=
      match monthOf t.date with
      | some m => bumpMonth b.favorite_months m
      | none => b.favorite_months
    first_seen := updFirst b.first_seen t.date
    last_seen := updLast b.last_seen t.date }

/-! ## Derived borrower metrics (create_borrowers_list, second pass) -/

/-- Round-half-to-even to an integer, the Python round rule. -/
def roundHalfEven (q : ℚ) : ℤ :=
  if q - ⌊q⌋ < 1 / 2 then ⌊q⌋
  else if 1 / 2 < q - ⌊q⌋ then ⌊q⌋ + 1
  else if ⌊q⌋ % 2 = 0 then ⌊q⌋ else ⌊q⌋ + 1

/-- Python round(x, 2). -/
def round2 (q : ℚ) : ℚ := (roundHalfEven (q * 100) : ℚ) / 100

/-- Maximum of a year list with head seed. -/
def maxL (y : ℤ) (ys : List ℤ) : ℤ := ys.foldl max y

/-- Minimum of a year list with head seed. -/
def minL (y : ℤ) (ys : List ℤ) : ℤ := ys.foldl min y

/-- reading_velocity as computed in create_borrowers_list: transactions
per active-year span rounded to two decimals, zero without active years. -/
def reading_velocity (years_active : List ℤ) (total_transactions : Nat) : ℚ :=
  match years_active with
  | [] => 0
  | y :: ys =>
    round2 ((total_transactions : ℚ) / ((maxL y ys : ℚ) - (minL y ys : ℚ) + 1))

/-- Python max over the histogram items keyed on the count: the first
maximal item in iteration (insertion) order. -/
def pyMaxByVal : List (Nat × Nat) → Option (Nat × Nat)
  | [] => none
  | p :: rest =>
    some (rest.foldl (fun acc q => if acc.2 < q.2 then q else acc) p)

/-- Build the insertion-ordered month histogram over a month sequence. -/
def buildHist (months : List Nat) : List (Nat × Nat) :=
  months.foldl bumpMonth []

/-- most_active_month as computed in create_borrowers_list: the key of the
Python max over the histogram items, None on an empty histogram. -/
def most_active_month (months : List Nat) : Option Nat :=
  (pyMaxByVal (buildHist months)).map Prod.fst

/-! ## Ghost classification (verify_all / enhance_books_with_transactions) -/

/-- A ledger transaction reduced to its book reference fields. -/
structure LTrans where
  book_name : Option (List Char)
  book_id : Option Int
deriving DecidableEq, Repr

/-- notna on the book name column. -/
def hasName (t : LTrans) : Bool := t.book_name.isSome

/-- notna on the identifier column. -/
def hasId (t : LTrans) : Bool := t.book_id.isSome

/-- matched: the identifier resolves in the catalog index (the cataloged
id set built in enhance_books_with_transactions). -/
def matchedB (catalogIds : Finset Int) (t : LTrans) : Bool :=
  match t.book_id with
  | some i => i ∈ catalogIds
  | none => false

/-- ghost: a book reference exists, by name or by an identifier with no
catalog match, but the transaction is not matched. -/
def ghostB (catalogIds : Finset Int) (t : LTrans) : Bool :=
  (hasName t || hasId t) && !(matchedB catalogIds t)

/-- orphan: neither a name nor an identifier is present. -/
def orphanB (t : LTrans) : Bool := !hasName t && !hasId t

/-! ## Pipeline skeleton (load_and_prepare_ledgers / create_data_for_app) -/

/-- Ledger loading: with no ledger files an empty frame comes back,
otherwise the concatenation of the per-file frames. -/
def load_and_prepare_ledgers (files : List (List LTrans)) : List LTrans :=
  if files.isEmpty then [] else files.flatten

/-- The output document assembled by create_data_for_app, reduced to the
classification-bearing parts the claims need. -/
structure AppOutput where
  transactions : List LTrans
  matchedCount : Nat
  ghostCount : Nat
  orphanCount : Nat
deriving DecidableEq, Repr

/-- create_data_for_app: load the ledgers; on an empty result log the
diagnostic and abort before any output document is written, else build
and emit the document. -/
def create_data_for_app (files : List (List LTrans))
    (catalogIds : Finset Int) : Except String AppOutput :=
  let ledgers := load_and_prepare_ledgers files
  if ledgers.isEmpty then
    Except.error ("No ledger data found. Cannot proceed.")
  else
    Except.ok
      { transactions := ledgers
        matchedCount := ledgers.countP (fun t => matchedB catalogIds t)
        ghostCount := ledgers.countP (fun t => ghostB catalogIds t)
        orphanCount := ledgers.countP (fun t => orphanB t) }

/-! ## Helper lemmas: digits and tokens -/

lemma digitChar_toNat {k : Nat} (h : k < 10) : (digitChar k).toNat = 48 + k := by
  interval_cases k <;> decide

lemma isDigitB_digitChar {k : Nat} (h : k < 10) : isDigitB (digitChar k) = true := by
  interval_cases k <;> decide

lemma digitVal_digitChar {k : Nat} (h : k < 10) : digitVal (digitChar k) = k := by
  interval_cases k <;> decide

lemma digitChar_not_sep {k : Nat} (h : k < 10) :
    digitChar k ∉ (['/', '-', '.'] : List Char) := by
  interval_cases k <;> decide

lemma pad2_all_digits {m : Nat} (h : m < 100) : (pad2 m).all isDigitB = true := by
  have h1 : m / 10 < 10 := by omega
  have h2 : m % 10 < 10 := by omega
  simp only [pad2, List.all_cons, List.all_nil, Bool.and_true]
  rw [isDigitB_digitChar h1, isDigitB_digitChar h2]
  rfl

lemma pad4_all_digits {y : Nat} (h : y < 10000) : (pad4 y).all isDigitB = true := by
  have h1 : y / 1000 < 10 := by omega
  have h2 : y / 100 % 10 < 10 := by omega
  have h3 : y / 10 % 10 < 10 := by omega
  have h4 : y % 10 < 10 := by omega
  simp only [pad4, List.all_cons, List.all_nil, Bool.and_true]
  rw [isDigitB_digitChar h1, isDigitB_digitChar h2,
      isDigitB_digitChar h3, isDigitB_digitChar h4]
  rfl

lemma parseDigits_pad2 {m : Nat} (h : m < 100) : parseDigits (pad2 m) = some m := by
  have h1 : m / 10 < 10 := by omega
  have h2 : m % 10 < 10 := by omega
  unfold parseDigits
  rw [if_pos]
  · simp only [pad2, List.foldl_cons, List.foldl_nil,
      digitVal_digitChar h1, digitVal_digitChar h2]
    congr 1
    omega
  · exact ⟨by simp [pad2], pad2_all_digits h⟩

lemma parseDigits_pad4 {y : Nat} (h : y < 10000) : parseDigits (pad4 y) = some y := by
  have h1 : y / 1000 < 10 := by omega
  have h2 : y / 100 % 10 < 10 := by omega
  have h3 : y / 10 % 10 < 10 := by omega
  have h4 : y % 10 < 10 := by omega
  unfold parseDigits
  rw [if_pos]
  · simp only [pad4, List.foldl_cons, List.foldl_nil,
      digitVal_digitChar h1, digitVal_digitChar h2,
      digitVal_digitChar h3, digitVal_digitChar h4]
    congr 1
    omega
  · exact ⟨by simp [pad4], pad4_all_digits h⟩

lemma tokVal_pad2 {m : Nat} (h : m < 100) : tokVal (pad2 m) = m := by
  simp [tokVal, parseDigits_pad2 h]

lemma tokVal_pad4 {y : Nat} (h : y < 10000) : tokVal (pad4 y) = y := by
  simp [tokVal, parseDigits_pad4 h]

lemma pad2_length (m : Nat) : (pad2 m).length = 2 := rfl

lemma pad4_length (y : Nat) : (pad4 y).length = 4 := rfl

lemma dmTok_pad2 {m : Nat} (h : m < 100) : dmTok (pad2 m) = true := by
  simp [dmTok, pad2_all_digits h, pad2_length]

lemma parseDigits_eq_none {cs : List Char} {c : Char} (hc : c ∈ cs)
    (hd : isDigitB c = false) : parseDigits cs = none := by
  unfold parseDigits
  rw [if_neg]
  rintro ⟨-, hall⟩
  have := List.all_eq_true.mp hall c hc
  simp [hd] at this

/-! ## Helper lemmas: splitting -/

lemma splitAny_nil (seps : List Char) : splitAny seps [] = [[]] := rfl

lemma splitAny_cons (seps : List Char) (c : Char) (cs : List Char) :
    splitAny seps (c :: cs) = splitStep seps c (splitAny seps cs) := rfl

lemma splitAny_ne_nil (seps : List Char) (cs : List Char) :
    splitAny seps cs ≠ [] := by
  induction cs with
  | nil => simp [splitAny_nil]
  | cons c cs ih =>
    rw [splitAny_cons]
    unfold splitStep
    split
    · simp
    · rcases h : splitAny seps cs with _ | ⟨g, gs⟩
      · simp
      · simp [h]

lemma splitAny_cons_sep {seps : List Char} {s : Char} (h : s ∈ seps)
    (cs : List Char) : splitAny seps (s :: cs) = [] :: splitAny seps cs := by
  rw [splitAny_cons]
  unfold splitStep
  rw [if_pos h]

lemma splitAny_block {seps : List Char} {l : List Char} {g : List Char}
    {gs : List (List Char)} (hl : splitAny seps l = g :: gs) :
    ∀ xs : List Char, (∀ c ∈ xs, c ∉ seps) →
      splitAny seps (xs ++ l) = (xs ++ g) :: gs := by
  intro xs
  induction xs with
  | nil => simpa using hl
  | cons x xs ih =>
    intro hx
    have hxs : ∀ c ∈ xs, c ∉ seps := fun c hc => hx c (List.mem_cons_of_mem x hc)
    have hxn : x ∉ seps := hx x (List.mem_cons_self x xs)
    rw [List.cons_append, splitAny_cons, ih hxs]
    unfold splitStep
    rw [if_neg hxn]
    rfl

/-! ## Helper lemmas: first-success semantics -/

lemma firstSome_cons_some (v : YMD) (l : List (Option YMD)) :
    firstSome (some v :: l) = some v := rfl

lemma firstSome_cons_none (l : List (Option YMD)) :
    firstSome (none :: l) = firstSome l := rfl

lemma firstSome_eq_none_iff (l : List (Option YMD)) :
    firstSome l = none ↔ ∀ o ∈ l, o = none := by
  induction l with
  | nil => simp [firstSome]
  | cons o rest ih =>
    cases o with
    | some v => simp [firstSome_cons_some]
    | none => simp [firstSome_cons_none, ih]

lemma firstSome_mem {l : List (Option YMD)} {v : YMD}
    (h : firstSome l = some v) : some v ∈ l := by
  induction l with
  | nil => simp [firstSome] at h
  | cons o rest ih =>
    cases o with
    | some w =>
      rw [firstSome_cons_some] at h
      rw [← h]
      exact List.mem_cons_self _ _
    | none =>
      rw [firstSome_cons_none] at h
      exact List.mem_cons_of_mem _ (ih h)

lemma foldl_fill_eq_firstSome (cs : List Char) (fs : List DateFormat) :
    ∀ init : Option YMD,
      fs.foldl (fun acc f => if acc.isSome then acc else parseWith f cs) init
        = firstSome (init :: fs.map (fun f => parseWith f cs)) := by
  induction fs with
  | nil =>
    intro init
    cases init <;> simp [firstSome]
  | cons f fs ih =>
    intro init
    cases init with
    | some v => simpa [firstSome_cons_some] using ih (some v)
    | none => simpa [firstSome_cons_none] using ih (parseWith f cs)

/-! ## C1: matched / ghost / orphan classification partitions -/

lemma classification_exactly_one (catalogIds : Finset Int) (t : LTrans) :
    ((if matchedB catalogIds t then 1 else 0)
      + (if ghostB catalogIds t then 1 else 0)
      + (if orphanB t then 1 else 0) : Nat) = 1 := by
  rcases t with ⟨bn, bid⟩
  cases bid with
  | none => cases bn <;> simp [matchedB, ghostB, orphanB, hasName, hasId]
  | some i =>
    by_cases h : i ∈ catalogIds <;> cases bn <;>
      simp [matchedB, ghostB, orphanB, hasName, hasId, h]

lemma presence_exactly_one (t : LTrans) :
    ((if hasName t && hasId t then 1 else 0)
      + (if hasName t && !hasId t then 1 else 0)
      + (if !hasName t && hasId t then 1 else 0)
      + (if !hasName t && !hasId t then 1 else 0) : Nat) = 1 := by
  cases hn : hasName t <;> cases hi : hasId t <;> simp [hn, hi]

/-- C1: every transaction receives exactly one of the classes matched
(id resolves in the catalog index), ghost (a reference by name or by an
id with no catalog match) and orphan (neither name nor id), the three
class counts sum to the transaction count, and the four name/id presence
buckets of verify_all partition the transactions as well. -/
theorem classification_partition (catalogIds : Finset Int) (ts : List LTrans) :
    (∀ t : LTrans,
      ((if matchedB catalogIds t then 1 else 0)
        + (if ghostB catalogIds t then 1 else 0)
        + (if orphanB t then 1 else 0) : Nat) = 1) ∧
    ts.countP (fun t => matchedB catalogIds t)
        + ts.countP (fun t => ghostB catalogIds t)
        + ts.countP (fun t => orphanB t) = ts.length ∧
    ts.countP (fun t => hasName t && hasId t)
        + ts.countP (fun t => hasName t && !hasId t)
        + ts.countP (fun t => !hasName t && hasId t)
        + ts.countP (fun t => !hasName t && !hasId t) = ts.length := by
  refine ⟨classification_exactly_one catalogIds, ?_, ?_⟩
  · induction ts with
    | nil => simp
    | cons t ts ih =>
      simp only [List.countP_cons, List.length_cons]
      have h := classification_exactly_one catalogIds t
      omega
  · induction ts with
    | nil => simp
    | cons t ts ih =>
      simp only [List.countP_cons, List.length_cons]
      have h := presence_exactly_one t
      omega

/-! ## C2: ordered date-format attempts, first success wins -/

/-- C2: the per-value result of standardize_dates is the first success of
the default day-first inference followed by the six explicit formats in
their listed order, applied only while the value is still unresolved, and
the result is null exactly when every attempt fails (the function is
total, so no input raises). -/
theorem date_attempt_order (cs : List Char) :
    standardizeDate cs
        = firstSome (inferDate cs :: formats.map (fun f => parseWith f cs)) ∧
    (standardizeDate cs = none ↔
      inferDate cs = none ∧ ∀ f ∈ formats, parseWith f cs = none) := by
  have h := foldl_fill_eq_firstSome cs formats (inferDate cs)
  refine ⟨h, ?_⟩
  rw [show standardizeDate cs = _ from h, firstSome_eq_none_iff]
  simp

/-! ## C3: book identifier merge and numeric coercion -/

/-- C5: with zero ledger source tables the pipeline run aborts with the
missing-source diagnostic and never emits an output document. -/
theorem zero_sources_abort (files : List (List LTrans)) (catalogIds : Finset Int)
    (h : files = []) :
    create_data_for_app files catalogIds
        = Except.error ("No ledger data found. Cannot proceed.") ∧
    ∀ out : AppOutput, create_data_for_app files catalogIds ≠ Except.ok out := by
  subst h
  refine ⟨rfl, ?_⟩
  intro out hout
  rw [show create_data_for_app ([] : List (List LTrans)) catalogIds
      = Except.error ("No ledger data found. Cannot proceed.") from rfl] at hout
  simp at hout

/-- Closed instance of C5 on the empty source list. -/
theorem zero_sources_abort_witness :
    create_data_for_app ([] : List (List LTrans)) (∅ : Finset Int)
        = Except.error ("No ledger data found. Cannot proceed.") :=
  (zero_sources_abort [] ∅ rfl).1

/-! ## C9: truthiness gates on the unique-book and active-year sets -/

/-- C9: the loop body always appends the transaction (so it is counted in
total_transactions), but a zero or missing book id never enters the
unique-book set and a zero or missing year never enters the active-year
set, while any other id or year is inserted. -/
theorem truthy_sets_spec (b : BorrowerAcc) (t : TransData) :
    ((addTransaction b t).transactions = b.transactions ++ [t]) ∧
    ((addTransaction b t).transactions.length = b.transactions.length + 1) ∧
    (t.book_id = some 0 → (addTransaction b t).unique_books = b.unique_books) ∧
    (t.book_id = none → (addTransaction b t).unique_books = b.unique_books) ∧
    (t.year = some 0 → (addTransaction b t).years_active = b.years_active) ∧
    (t.year = none → (addTransaction b t).years_active = b.years_active) ∧
    (∀ n : Int, t.book_id = some n → n ≠ 0 →
      (addTransaction b t).unique_books = insert n b.unique_books) ∧
    (∀ n : Int, t.year = some n → n ≠ 0 →
      (addTransaction b t).years_active = insert n b.years_active) := by
  refine ⟨rfl, by simp [addTransaction], ?_, ?_, ?_, ?_, ?_, ?_⟩
  · intro h; simp [addTransaction, truthyInt, h]
  · intro h; simp [addTransaction, truthyInt, h]
  · intro h; simp [addTransaction, truthyInt, h]
  · intro h; simp [addTransaction, truthyInt, h]
  · intro n hn hne; simp [addTransaction, truthyInt, hn, hne]
  · intro n hn hne; simp [addTransaction, truthyInt, hn, hne]

/-- Closed instance of C9: a zero book id and a zero year leave both sets
untouched while the transaction is still appended. -/
theorem truthy_sets_spec_witness :
    (addTransaction ⟨("M"), none, none, [], ∅, ∅, []⟩
        ⟨none, some 0, none, none, none, some 0⟩).unique_books
      = (∅ : Finset Int) ∧
    (addTransaction ⟨("M"), none, none, [], ∅, ∅, []⟩
        ⟨none, some 0, none, none, none, some 0⟩).years_active
      = (∅ : Finset Int) ∧
    (addTransaction ⟨("M"), none, none, [], ∅, ∅, []⟩
        ⟨none, some 0, none, none, none, some 0⟩).transactions.length = 1 :=
  ⟨(truthy_sets_spec _ _).2.2.1 rfl,
   (truthy_sets_spec _ _).2.2.2.2.1 rfl,
   (truthy_sets_spec _ _).2.1⟩

/-! ## C10: gender marker mapping -/

lemma genderOf_ne_unknown (marker : RawCell) : genderOf marker ≠ "Unknown" := by
  rcases marker with _ | s
  · decide
  · simp only [genderOf]
    split_ifs <;> decide

/-- C10: with the marker column present a transaction is W exactly when
its marker strips and lowercases to x, f or female, every other value
including a missing marker yields M, so Unknown never occurs; Unknown is
assigned to the whole column exactly when the marker column is absent. -/
theorem gender_mapping_spec :
    (∀ marker : RawCell,
      (genderOf marker = "W" ↔ ∃ s, marker = some s ∧
        (stripLower s = ['x'] ∨ stripLower s = ['f'] ∨
         stripLower s = ['f', 'e', 'm', 'a', 'l', 'e'])) ∧
      genderOf marker ≠ "Unknown" ∧
      (genderOf marker = "W" ∨ genderOf marker = "M")) ∧
    (∀ (markers : List RawCell) (n : Nat) (g : String),
      g ∈ assignGender true markers n → g ≠ "Unknown") ∧
    (∀ (markers : List RawCell) (n : Nat),
      assignGender false markers n = List.replicate n "Unknown") := by
  refine ⟨?_, ?_, fun _ _ => rfl⟩
  · intro marker
    refine ⟨?_, genderOf_ne_unknown marker, ?_⟩
    · constructor
      · intro hw
        rcases marker with _ | s
        · exact absurd hw (by decide)
        · refine ⟨s, rfl, ?_⟩
          by_contra hx
          rw [show genderOf (some s) = "M" by
            simp only [genderOf]; rw [if_neg hx]] at hw
          exact absurd hw (by decide)
      · rintro ⟨s, rfl, hx⟩
        simp only [genderOf]
        rw [if_pos hx]
    · rcases marker with _ | s
      · exact Or.inr rfl
      · simp only [genderOf]
        split_ifs
        · exact Or.inl rfl
        · exact Or.inr rfl
  · intro markers n g hg
    rw [show assignGender true markers n = markers.map genderOf from rfl] at hg
    obtain ⟨m, hm, rfl⟩ := List.mem_map.mp hg
    exact genderOf_ne_unknown m

/-- Closed instance of C10 at concrete markers. -/
theorem gender_mapping_spec_witness :
    genderOf (some [' ', 'X', ' ']) = "W" ∧
    genderOf (some ['m', 'a', 'n']) ≠ "Unknown" ∧
    assignGender false [] 2 = List.replicate 2 "Unknown" :=
  ⟨((gender_mapping_spec.1 (some [' ', 'X', ' '])).1).mpr
      ⟨[' ', 'X', ' '], rfl, Or.inl (by decide)⟩,
   (gender_mapping_spec.1 (some ['m', 'a', 'n'])).2.1,
   gender_mapping_spec.2.2 [] 2⟩

/-! ## C6: reading velocity rounds to two decimals -/

lemma roundHalfEven_close (x : ℚ) : |(roundHalfEven x : ℚ) - x| ≤ 1 / 2 := by
  have h0 : (⌊x⌋ : ℚ) ≤ x := Int.floor_le x
  have h1 : x < ⌊x⌋ + 1 := Int.lt_floor_add_one x
  unfold roundHalfEven
  split_ifs with ha hb hc <;> (rw [abs_le]; constructor <;> push_cast <;> linarith)

lemma round2_close (q : ℚ) : |round2 q - q| ≤ 1 / 200 := by
  have h := roundHalfEven_close (q * 100)
  unfold round2
  have he : (roundHalfEven (q * 100) : ℚ) / 100 - q
      = ((roundHalfEven (q * 100) : ℚ) - q * 100) / 100 := by ring
  rw [he, abs_div, show |(100 : ℚ)| = 100 by norm_num]
  linarith

/-- C6 counterexample: with active years 1902 and 1904 and one
transaction, the stored reading velocity is the rounded 0.33, not the
exact quotient one third that the claim states. -/
theorem reading_velocity_cex :
    reading_velocity [1902, 1904] 1
        ≠ ((1 : Nat) : ℚ) / ((maxL 1902 [1904] : ℚ) - (minL 1902 [1904] : ℚ) + 1) := by
  have hmax : maxL 1902 [1904] = 1904 := by simp [maxL]
  have hmin : minL 1902 [1904] = 1902 := by simp [minL]
  have hfloor : ⌊(100 : ℚ) / 3⌋ = 33 := by
    rw [Int.floor_eq_iff]
    norm_num
  have harg : ((1 : Nat) : ℚ)
      / ((maxL 1902 [1904] : ℚ) - (minL 1902 [1904] : ℚ) + 1) = 1 / 3 := by
    rw [hmax, hmin]
    push_cast
    norm_num
  have h0 : reading_velocity [1902, 1904] 1
      = round2 (((1 : Nat) : ℚ)
          / ((maxL 1902 [1904] : ℚ) - (minL 1902 [1904] : ℚ) + 1)) := rfl
  have hval : reading_velocity [1902, 1904] 1 = 33 / 100 := by
    rw [h0, harg]
    unfold round2
    rw [show (1 : ℚ) / 3 * 100 = 100 / 3 by ring]
    unfold roundHalfEven
    rw [hfloor]
    rw [if_pos (by norm_num)]
    norm_num
  rw [hval, harg]
  norm_num

/-- C6 (amended): the reading velocity is zero without active years, and
with at least one active year it is the transaction count divided by the
active-year span rounded half-to-even to two decimals, hence within 1/200
of the exact quotient. -/
theorem reading_velocity_spec (years : List ℤ) (total : Nat) :
    (years = [] → reading_velocity years total = 0) ∧
    (∀ y ys, years = y :: ys →
      reading_velocity years total
          = round2 ((total : ℚ) / ((maxL y ys : ℚ) - (minL y ys : ℚ) + 1)) ∧
      |reading_velocity years total
          - (total : ℚ) / ((maxL y ys : ℚ) - (minL y ys : ℚ) + 1)| ≤ 1 / 200) := by
  constructor
  · rintro rfl
    rfl
  · rintro y ys rfl
    exact ⟨rfl, round2_close _⟩

/-- Closed instance of C6 (amended) at a concrete borrower. -/
theorem reading_velocity_spec_witness :
    reading_velocity [] 0 = 0 ∧
    (reading_velocity [1902, 1904] 1
        = round2 (((1 : Nat) : ℚ)
            / ((maxL 1902 [1904] : ℚ) - (minL 1902 [1904] : ℚ) + 1)) ∧
     |reading_velocity [1902, 1904] 1
        - ((1 : Nat) : ℚ)
            / ((maxL 1902 [1904] : ℚ) - (minL 1902 [1904] : ℚ) + 1)| ≤ 1 / 200) :=
  ⟨(reading_velocity_spec [] 0).1 rfl,
   (reading_velocity_spec [1902, 1904] 1).2 1902 [1904] rfl⟩

/-! ## C7: most active month, insertion-order tie-breaking -/

/-- Dict lookup in the month histogram, zero when absent. -/
def lookupH : List (Nat × Nat) → Nat → Nat
  | [], _ => 0
  | (k, v) :: rest, x => if k = x then v else lookupH rest x

lemma lookupH_bump (hist : List (Nat × Nat)) (m x : Nat) :
    lookupH (bumpMonth hist m) x
      = if x = m then lookupH hist x + 1 else lookupH hist x := by
  induction hist with
  | nil =>
    by_cases h : x = m
    · subst h
      simp [bumpMonth, lookupH]
    · have h2 : ¬ m = x := fun hh => h hh.symm
      simp [bumpMonth, lookupH, h, h2]
  | cons p rest ih =>
    obtain ⟨k, v⟩ := p
    by_cases hk : k = m
    · subst hk
      by_cases hx : k = x
      · subst hx
        simp [bumpMonth, lookupH]
      · have hx2 : ¬ x = k := fun hh => hx hh.symm
        simp [bumpMonth, lookupH, hx, hx2]
    · by_cases hx : k = x
      · subst hx
        simp [bumpMonth, lookupH, hk]
      · simp [bumpMonth, lookupH, hk, hx, ih]

lemma lookupH_foldl_bump (ms : List Nat) :
    ∀ (hist : List (Nat × Nat)) (x : Nat),
      lookupH (ms.foldl bumpMonth hist) x = lookupH hist x + ms.count x := by
  induction ms with
  | nil => simp
  | cons m ms ih =>
    intro hist x
    simp only [List.foldl_cons, List.count_cons]
    rw [ih, lookupH_bump]
    by_cases h : x = m
    · subst h
      simp
      omega
    · have h2 : ¬ m = x := fun hh => h hh.symm
      simp [h, h2]

lemma lookupH_buildHist (ms : List Nat) (x : Nat) :
    lookupH (buildHist ms) x = ms.count x := by
  have := lookupH_foldl_bump ms [] x
  simpa [buildHist, lookupH] using this

lemma bump_keys (hist : List (Nat × Nat)) (m : Nat) :
    (bumpMonth hist m).map Prod.fst
      = if m ∈ hist.map Prod.fst then hist.map Prod.fst
        else hist.map Prod.fst ++ [m] := by
  induction hist with
  | nil => simp [bumpMonth]
  | cons p rest ih =>
    obtain ⟨k, v⟩ := p
    by_cases hk : k = m
    · subst hk
      simp [bumpMonth]
    · have hne : ¬ m = k := fun h => hk h.symm
      by_cases hm : m ∈ rest.map Prod.fst <;>
        simp [bumpMonth, hk, ih, hm, hne]

lemma nodup_keys_bump {hist : List (Nat × Nat)} (m : Nat)
    (h : (hist.map Prod.fst).Nodup) :
    ((bumpMonth hist m).map Prod.fst).Nodup := by
  rw [bump_keys]
  split_ifs with hm
  · exact h
  · rw [List.nodup_append]
    exact ⟨h, List.nodup_singleton m, by simpa [List.disjoint_singleton] using hm⟩

lemma nodup_keys_foldl_bump (ms : List Nat) :
    ∀ hist : List (Nat × Nat), (hist.map Prod.fst).Nodup →
      ((ms.foldl bumpMonth hist).map Prod.fst).Nodup := by
  induction ms with
  | nil => exact fun hist h => h
  | cons m ms ih =>
    intro hist h
    simp only [List.foldl_cons]
    exact ih _ (nodup_keys_bump m h)

lemma nodup_keys_buildHist (ms : List Nat) :
    ((buildHist ms).map Prod.fst).Nodup :=
  nodup_keys_foldl_bump ms [] (by simp)

lemma mem_lookupH {hist : List (Nat × Nat)}
    (hnd : (hist.map Prod.fst).Nodup) {k v : Nat} (hm : (k, v) ∈ hist) :
    lookupH hist k = v := by
  induction hist with
  | nil => simp at hm
  | cons p rest ih =>
    obtain ⟨a, b⟩ := p
    simp only [List.map_cons, List.nodup_cons] at hnd
    rcases List.mem_cons.mp hm with h | h
    · rw [show a = k from congrArg Prod.fst h.symm,
          show b = v from congrArg Prod.snd h.symm]
      simp [lookupH]
    · have hak : a ≠ k := by
        intro heq
        subst heq
        exact hnd.1 (List.mem_map.mpr ⟨(a, v), h, rfl⟩)
      simp only [lookupH, if_neg hak]
      exact ih hnd.2 h

lemma lookupH_cases (hist : List (Nat × Nat)) (x : Nat) :
    lookupH hist x = 0 ∨ (x, lookupH hist x) ∈ hist := by
  induction hist with
  | nil => exact Or.inl rfl
  | cons p rest ih =>
    obtain ⟨k, v⟩ := p
    by_cases hk : k = x
    · subst hk
      right
      simp [lookupH]
    · simp only [lookupH, if_neg hk]
      rcases ih with h | h
      · exact Or.inl h
      · exact Or.inr (List.mem_cons_of_mem _ h)

lemma bump_ne_nil (hist : List (Nat × Nat)) (m : Nat) : bumpMonth hist m ≠ [] := by
  cases hist with
  | nil => simp [bumpMonth]
  | cons p rest =>
    obtain ⟨k, v⟩ := p
    unfold bumpMonth
    split <;> simp

lemma foldl_bump_ne_nil (ms : List Nat) :
    ∀ hist : List (Nat × Nat), hist ≠ [] → ms.foldl bumpMonth hist ≠ [] := by
  induction ms with
  | nil => exact fun hist h => h
  | cons m ms ih =>
    intro hist h
    simp only [List.foldl_cons]
    exact ih _ (bump_ne_nil hist m)

lemma buildHist_ne_nil {ms : List Nat} (h : ms ≠ []) : buildHist ms ≠ [] := by
  obtain ⟨m, rest, rfl⟩ := List.exists_cons_of_ne_nil h
  show ((m :: rest).foldl bumpMonth []) ≠ []
  simp only [List.foldl_cons]
  exact foldl_bump_ne_nil rest (bumpMonth [] m) (bump_ne_nil [] m)

lemma foldlMax_spec (rest : List (Nat × Nat)) :
    ∀ acc : Nat × Nat,
      ∃ r, rest.foldl (fun a q => if a.2 < q.2 then q else a) acc = r ∧
        ((r = acc ∧ ∀ q ∈ rest, q.2 ≤ acc.2) ∨
         (∃ l₁ l₂, rest = l₁ ++ r :: l₂ ∧ acc.2 < r.2 ∧
           (∀ q ∈ l₁, q.2 < r.2) ∧ (∀ q ∈ l₂, q.2 ≤ r.2))) := by
  induction rest with
  | nil =>
    intro acc
    exact ⟨acc, rfl, Or.inl ⟨rfl, by simp⟩⟩
  | cons q rs ih =>
    intro acc
    by_cases hq : acc.2 < q.2
    · obtain ⟨r, hfold, hcase⟩ := ih q
      refine ⟨r, by simp [List.foldl_cons, if_pos hq, hfold], Or.inr ?_⟩
      rcases hcase with ⟨rfl, hb⟩ | ⟨l₁, l₂, hrs, hlt, h1, h2⟩
      · exact ⟨[], rs, rfl, hq, by simp, hb⟩
      · refine ⟨q :: l₁, l₂, by rw [hrs]; rfl, lt_trans hq hlt, ?_, h2⟩
        intro p hp
        rcases List.mem_cons.mp hp with rfl | hp
        · exact hlt
        · exact h1 p hp
    · obtain ⟨r, hfold, hcase⟩ := ih acc
      refine ⟨r, by simp [List.foldl_cons, if_neg hq, hfold], ?_⟩
      rcases hcase with ⟨rfl, hb⟩ | ⟨l₁, l₂, hrs, hlt, h1, h2⟩
      · refine Or.inl ⟨rfl, ?_⟩
        intro p hp
        rcases List.mem_cons.mp hp with rfl | hp
        · omega
        · exact hb p hp
      · refine Or.inr ⟨q :: l₁, l₂, by rw [hrs]; rfl, hlt, ?_, h2⟩
        intro p hp
        rcases List.mem_cons.mp hp with rfl | hp
        · omega
        · exact h1 p hp

/-- C7 counterexample: a borrower whose transactions fall in month 5 then
month 3, once each, ties in the histogram, and the code picks month 5
(the first encountered), not the lowest month number 3. -/
theorem most_active_month_cex :
    buildHist [5, 3] = [(5, 1), (3, 1)] ∧
    most_active_month [5, 3] = some 5 ∧
    most_active_month [5, 3] ≠ some 3 :=
  ⟨rfl, rfl, by decide⟩

/-- C7 (amended): most_active_month is a month of maximal frequency, but
ties between maximal months are broken by the month first encountered in
the borrower's transaction order (dict insertion order), not by the
lowest month number. -/
theorem most_active_month_spec (months : List Nat) (h : months ≠ []) :
    ∃ m c l₁ l₂,
      most_active_month months = some m ∧
      buildHist months = l₁ ++ (m, c) :: l₂ ∧
      c = months.count m ∧
      (∀ p ∈ l₁, p.2 < c) ∧
      (∀ p ∈ l₂, p.2 ≤ c) ∧
      (∀ x : Nat, months.count x ≤ c) := by
  have hne := buildHist_ne_nil h
  obtain ⟨p, rest, hhist⟩ := List.exists_cons_of_ne_nil hne
  obtain ⟨r, hfold, hcase⟩ := foldlMax_spec rest p
  have hmax : pyMaxByVal (buildHist months) = some r := by
    rw [hhist]
    simp [pyMaxByVal, hfold]
  have hdecomp : ∃ l₁ l₂, buildHist months = l₁ ++ r :: l₂ ∧
      (∀ q ∈ l₁, q.2 < r.2) ∧ (∀ q ∈ l₂, q.2 ≤ r.2) := by
    rcases hcase with ⟨rfl, hb⟩ | ⟨l₁, l₂, hrs, hlt, h1, h2⟩
    · exact ⟨[], rest, by rw [hhist]; rfl, by simp, hb⟩
    · refine ⟨p :: l₁, l₂, by rw [hhist, hrs]; rfl, ?_, h2⟩
      intro q hq
      rcases List.mem_cons.mp hq with rfl | hq
      · exact hlt
      · exact h1 q hq
  obtain ⟨l₁, l₂, hsplit, h1, h2⟩ := hdecomp
  have hmem : r ∈ buildHist months := by
    rw [hsplit]
    exact List.mem_append_right l₁ (List.mem_cons_self r l₂)
  have hcount : r.2 = months.count r.1 := by
    have := mem_lookupH (nodup_keys_buildHist months)
      (show (r.1, r.2) ∈ buildHist months from hmem)
    rw [← this, lookupH_buildHist]
  refine ⟨r.1, r.2, l₁, l₂, ?_, by rw [hsplit], hcount, h1, h2, ?_⟩
  · rw [most_active_month, hmax]
    rfl
  · intro x
    rcases lookupH_cases (buildHist months) x with h0 | hmemx
    · rw [← lookupH_buildHist, h0]
      omega
    · rw [← lookupH_buildHist]
      set L := lookupH (buildHist months) x with hL
      rw [hsplit] at hmemx
      rcases List.mem_append.mp hmemx with hx | hx
      · exact le_of_lt (h1 _ hx)
      · rcases List.mem_cons.mp hx with heq | hx
        · exact le_of_eq (congrArg Prod.snd heq)
        · exact h2 _ hx

/-- Closed instance of C7 (amended) on the concrete month sequence. -/
theorem most_active_month_spec_witness :
    ∃ m c l₁ l₂,
      most_active_month [5, 3] = some m ∧
      buildHist [5, 3] = l₁ ++ (m, c) :: l₂ ∧
      c = List.count m [5, 3] ∧
      (∀ p ∈ l₁, p.2 < c) ∧
      (∀ p ∈ l₂, p.2 ≤ c) ∧
      (∀ x : Nat, List.count x [5, 3] ≤ c) :=
  most_active_month_spec [5, 3] (by decide)

/-! ## C4: schema resolver -/

/-- The non-strict version of the find_best_column sort key order. -/
def keyLe (a b : Candidate) : Prop :=
  a.keyword_score < b.keyword_score ∨
    (a.keyword_score = b.keyword_score ∧ a.frac ≤ b.frac)

lemma keyLe_refl (a : Candidate) : keyLe a a := Or.inr ⟨rfl, le_refl _⟩

lemma keyLe_trans {a b c : Candidate} (h1 : keyLe a b) (h2 : keyLe b c) :
    keyLe a c := by
  rcases h1 with h1 | ⟨e1, f1⟩ <;> rcases h2 with h2 | ⟨e2, f2⟩
  · exact Or.inl (lt_trans h1 h2)
  · exact Or.inl (e2 ▸ h1)
  · exact Or.inl (e1 ▸ h2)
  · exact Or.inr ⟨e1.trans e2, f1.trans f2⟩

lemma keyLt_true_le {a b : Candidate} (h : keyLt a b = true) : keyLe a b := by
  unfold keyLt at h
  simp only [Bool.or_eq_true, Bool.and_eq_true, decide_eq_true_eq,
    beq_iff_eq] at h
  rcases h with h | ⟨h1, h2⟩
  · exact Or.inl h
  · exact Or.inr ⟨h1, le_of_lt h2⟩

lemma keyLt_false_le {a b : Candidate} (h : keyLt a b = false) : keyLe b a := by
  unfold keyLt at h
  simp only [Bool.or_eq_false_iff, Bool.and_eq_false_iff, decide_eq_false_iff_not,
    beq_eq_false_iff_ne, ne_eq, not_lt] at h
  obtain ⟨h1, h2⟩ := h
  rcases lt_or_eq_of_le h1 with hlt | heq
  · exact Or.inl hlt
  · rcases h2 with h2 | h2
    · exact absurd heq.symm h2
    · exact Or.inr ⟨heq, h2⟩

lemma foldlBest_mem (rest : List Candidate) :
    ∀ acc : Candidate,
      rest.foldl (fun a d => if keyLt a d then d else a) acc = acc ∨
      rest.foldl (fun a d => if keyLt a d then d else a) acc ∈ rest := by
  induction rest with
  | nil => exact fun acc => Or.inl rfl
  | cons d rs ih =>
    intro acc
    simp only [List.foldl_cons]
    rcases ih (if keyLt acc d then d else acc) with h | h
    · rw [h]
      split
      · exact Or.inr (List.mem_cons_self _ _)
      · exact Or.inl rfl
    · exact Or.inr (List.mem_cons_of_mem _ h)

lemma foldlBest_le (rest : List Candidate) :
    ∀ acc q, q ∈ acc :: rest →
      keyLe q (rest.foldl (fun a d => if keyLt a d then d else a) acc) := by
  induction rest with
  | nil =>
    intro acc q hq
    rcases List.mem_cons.mp hq with rfl | hq
    · exact keyLe_refl q
    · simp at hq
  | cons d rs ih =>
    intro acc q hq
    simp only [List.foldl_cons]
    have hstep : keyLe acc (if keyLt acc d then d else acc) ∧
        keyLe d (if keyLt acc d then d else acc) := by
      by_cases h : keyLt acc d = true
      · rw [if_pos h]
        exact ⟨keyLt_true_le h, keyLe_refl d⟩
      · rw [if_neg h]
        refine ⟨keyLe_refl acc, keyLt_false_le ?_⟩
        simpa using h
    rcases List.mem_cons.mp hq with rfl | hq
    · exact keyLe_trans hstep.1 (ih _ _ (List.mem_cons_self _ _))
    · rcases List.mem_cons.mp hq with rfl | hq
      · exact keyLe_trans hstep.2 (ih _ _ (List.mem_cons_self _ _))
      · exact ih _ q (List.mem_cons_of_mem _ hq)

lemma scoreCol_eq_some {t : Table} {keywords excl : List (List Char)}
    {col : Column} {q : Candidate} :
    scoreCol t keywords excl col = some q ↔
      isExcluded excl (col.name.map Char.toLower) = false ∧
      0 < keywordScore keywords (col.name.map Char.toLower) ∧
      q = ⟨col, keywordScore keywords (col.name.map Char.toLower),
           nonNullFrac t col⟩ := by
  unfold scoreCol
  dsimp only
  split_ifs with h1 h2
  · simp [h1]
  · rw [Bool.not_eq_true] at h1
    simp [h1, h2, eq_comm]
  · rw [Bool.not_eq_true] at h1
    simp [h1, h2]

lemma scoreCol_eq_none {t : Table} {keywords excl : List (List Char)}
    {col : Column} :
    scoreCol t keywords excl col = none ↔
      isExcluded excl (col.name.map Char.toLower) = true ∨
      keywordScore keywords (col.name.map Char.toLower) = 0 := by
  unfold scoreCol
  dsimp only
  split_ifs with h1 h2
  · simp [h1]
  · rw [Bool.not_eq_true] at h1
    have h3 : keywordScore keywords (col.name.map Char.toLower) ≠ 0 := by omega
    simp [h1, h3]
  · rw [Bool.not_eq_true] at h1
    have h3 : keywordScore keywords (col.name.map Char.toLower) = 0 := by omega
    simp [h1, h3]

/-- C4: find_best_column scores every column by the count of hint
keywords in its lowercased name, disqualifies columns whose lowercased
name contains an exclusion keyword, returns the unresolved marker exactly
when no qualifying column exists, and otherwise returns a qualifying
best candidate: equal keyword scores are beaten only by a higher non-null
fraction.  The function is total, so no input raises. -/
theorem find_best_column_spec (t : Table) (keywords excl : List (List Char)) :
    (find_best_column t keywords excl = none ↔
      ∀ col ∈ t.cols,
        isExcluded excl (col.name.map Char.toLower) = true ∨
        keywordScore keywords (col.name.map Char.toLower) = 0) ∧
    (∀ cand, find_best_column t keywords excl = some cand →
      cand.column ∈ t.cols ∧
      isExcluded excl (cand.column.name.map Char.toLower) = false ∧
      cand.keyword_score = keywordScore keywords (cand.column.name.map Char.toLower) ∧
      0 < cand.keyword_score ∧
      cand.frac = nonNullFrac t cand.column ∧
      ∀ col ∈ t.cols, isExcluded excl (col.name.map Char.toLower) = false →
        keywordScore keywords (col.name.map Char.toLower) < cand.keyword_score ∨
        (keywordScore keywords (col.name.map Char.toLower) = cand.keyword_score ∧
          nonNullFrac t col ≤ cand.frac)) := by
  have hnone : find_best_column t keywords excl = none ↔
      candidatesOf t keywords excl = [] := by
    unfold find_best_column
    rcases h : candidatesOf t keywords excl with _ | ⟨c, rest⟩ <;> simp
  constructor
  · rw [hnone]
    unfold candidatesOf
    rw [List.filterMap_eq_nil_iff]
    constructor
    · intro h col hcol
      exact scoreCol_eq_none.mp (h col hcol)
    · intro h col hcol
      exact scoreCol_eq_none.mpr (h col hcol)
  · intro cand hcand
    have hcands : ∃ c rest, candidatesOf t keywords excl = c :: rest ∧
        cand = rest.foldl (fun a d => if keyLt a d then d else a) c := by
      unfold find_best_column at hcand
      rcases h : candidatesOf t keywords excl with _ | ⟨c, rest⟩
      · rw [h] at hcand
        simp at hcand
      · rw [h] at hcand
        simp only [Option.some.injEq] at hcand
        exact ⟨c, rest, rfl, hcand.symm⟩
    obtain ⟨c, rest, hcr, hfold⟩ := hcands
    have hmem : cand ∈ candidatesOf t keywords excl := by
      rw [hcr]
      rcases foldlBest_mem rest c with h | h
      · rw [hfold, h]
        exact List.mem_cons_self _ _
      · rw [hfold]
        exact List.mem_cons_of_mem _ h
    obtain ⟨col, hcol, hsc⟩ := List.mem_filterMap.mp hmem
    obtain ⟨hex, hpos, hq⟩ := scoreCol_eq_some.mp hsc
    have hfacts : cand.column = col ∧
        cand.keyword_score = keywordScore keywords (col.name.map Char.toLower) ∧
        cand.frac = nonNullFrac t col := by
      rw [hq]
      exact ⟨rfl, rfl, rfl⟩
    obtain ⟨hc1, hc2, hc3⟩ := hfacts
    refine ⟨hc1 ▸ hcol, hc1 ▸ hex, hc1 ▸ hc2, ?_, hc1 ▸ hc3, ?_⟩
    · rw [hc2]
      exact hpos
    · intro col2 hcol2 hex2
      by_cases hs : 0 < keywordScore keywords (col2.name.map Char.toLower)
      · have hq2 : (⟨col2, keywordScore keywords (col2.name.map Char.toLower),
            nonNullFrac t col2⟩ : Candidate) ∈ candidatesOf t keywords excl :=
          List.mem_filterMap.mpr ⟨col2, hcol2,
            scoreCol_eq_some.mpr ⟨hex2, hs, rfl⟩⟩
        rw [hcr] at hq2
        have hle := foldlBest_le rest c _ hq2
        rw [← hfold] at hle
        rcases hle with h | ⟨h1, h2⟩
        · exact Or.inl h
        · exact Or.inr ⟨h1, h2⟩
      · left
        rw [hc2]
        omega

/-- Closed instance of C4 on a one-column table. -/
theorem find_best_column_spec_witness :
    find_best_column ⟨1, [⟨['i', 'd'], [some 3]⟩]⟩ [['i', 'd']] []
        = some ⟨⟨['i', 'd'], [some 3]⟩, 1,
            nonNullFrac ⟨1, [⟨['i', 'd'], [some 3]⟩]⟩ ⟨['i', 'd'], [some 3]⟩⟩ ∧
    (⟨['i', 'd'], [some 3]⟩ : Column) ∈ (⟨1, [⟨['i', 'd'], [some 3]⟩]⟩ : Table).cols ∧
    (0 : Nat) < 1 := by
  refine ⟨rfl, ?_, ?_⟩
  · exact ((find_best_column_spec ⟨1, [⟨['i', 'd'], [some 3]⟩]⟩
      [['i', 'd']] []).2 _ rfl).1
  · exact ((find_best_column_spec ⟨1, [⟨['i', 'd'], [some 3]⟩]⟩
      [['i', 'd']] []).2 _ rfl).2.2.2.1

/-! ## C8: idempotence of date normalization -/

lemma daysInMonth_le (y m : Nat) : daysInMonth y m ≤ 31 := by
  unfold daysInMonth
  split_ifs <;> omega

lemma validYMD_bounds {y m d : Nat} (h : validYMD y m d = true) :
    1678 ≤ y ∧ y ≤ 2261 ∧ 1 ≤ m ∧ m ≤ 12 ∧ 1 ≤ d ∧ d ≤ 31 := by
  unfold validYMD at h
  simp only [Bool.and_eq_true, decide_eq_true_eq] at h
  have := daysInMonth_le y m
  omega

lemma parseWith_valid {f : DateFormat} {cs : List Char} {d : YMD}
    (h : parseWith f cs = some d) : validYMD d.year d.month d.day = true := by
  unfold parseWith at h
  split at h
  · split at h
    all_goals
      split_ifs at h with hc
      all_goals
        simp only [Option.some.injEq] at h
        subst h
        simp only [Bool.and_eq_true] at hc
        exact hc.2
  · exact absurd h (by simp)

lemma inferDate_valid {cs : List Char} {d : YMD}
    (h : inferDate cs = some d) : validYMD d.year d.month d.day = true := by
  unfold inferDate at h
  split at h
  · split_ifs at h with h1 h2 h3 h4 h5
    all_goals
      simp only [Option.some.injEq] at h
      subst h
      assumption
  · exact absurd h (by simp)

lemma foldl_fill_some (cs : List Char) (v : YMD) :
    formats.foldl (fun acc f => if acc.isSome then acc else parseWith f cs)
      (some v) = some v := by
  rw [foldl_fill_eq_firstSome]
  rfl

lemma standardizeDate_valid {cs : List Char} {d : YMD}
    (h : standardizeDate cs = some d) : validYMD d.year d.month d.day = true := by
  have h2 : firstSome (inferDate cs :: formats.map (fun f => parseWith f cs))
      = some d := by
    rw [← foldl_fill_eq_firstSome]
    exact h
  have hmem := firstSome_mem h2
  rcases List.mem_cons.mp hmem with heq | hmem
  · exact inferDate_valid heq.symm
  · obtain ⟨f, hf, heq⟩ := List.mem_map.mp hmem
    exact parseWith_valid heq

lemma pad2_not_sep {m : Nat} (h : m < 100) :
    ∀ c ∈ pad2 m, c ∉ (['/', '-', '.'] : List Char) := by
  intro c hc
  unfold pad2 at hc
  rcases List.mem_cons.mp hc with rfl | hc
  · exact digitChar_not_sep (by omega)
  · rcases List.mem_cons.mp hc with rfl | hc
    · exact digitChar_not_sep (by omega)
    · simp at hc

lemma pad4_not_sep {y : Nat} (h : y < 10000) :
    ∀ c ∈ pad4 y, c ∉ (['/', '-', '.'] : List Char) := by
  intro c hc
  unfold pad4 at hc
  rcases List.mem_cons.mp hc with rfl | hc
  · exact digitChar_not_sep (by omega)
  · rcases List.mem_cons.mp hc with rfl | hc
    · exact digitChar_not_sep (by omega)
    · rcases List.mem_cons.mp hc with rfl | hc
      · exact digitChar_not_sep (by omega)
      · rcases List.mem_cons.mp hc with rfl | hc
        · exact digitChar_not_sep (by omega)
        · simp at hc

lemma splitAny_formatISO {d : YMD} (hy : d.year < 10000) (hm : d.month < 100)
    (hd : d.day < 100) :
    splitAny ['/', '-', '.'] (formatISO d)
      = [pad4 d.year, pad2 d.month, pad2 d.day] := by
  have s1 : splitAny ['/', '-', '.'] (pad2 d.day ++ [])
      = (pad2 d.day ++ []) :: [] :=
    splitAny_block (show splitAny ['/', '-', '.'] [] = [] :: [] from rfl)
      (pad2 d.day) (pad2_not_sep hd)
  rw [List.append_nil] at s1
  have s2 : splitAny ['/', '-', '.'] ('-' :: pad2 d.day)
      = [] :: [pad2 d.day] := by
    rw [splitAny_cons_sep (by decide) (pad2 d.day), s1]
  have s3 : splitAny ['/', '-', '.'] (pad2 d.month ++ '-' :: pad2 d.day)
      = (pad2 d.month ++ []) :: [pad2 d.day] :=
    splitAny_block s2 (pad2 d.month) (pad2_not_sep hm)
  rw [List.append_nil] at s3
  have s4 : splitAny ['/', '-', '.'] ('-' :: (pad2 d.month ++ '-' :: pad2 d.day))
      = [] :: [pad2 d.month, pad2 d.day] := by
    rw [splitAny_cons_sep (by decide) _, s3]
  have s5 : splitAny ['/', '-', '.']
      (pad4 d.year ++ '-' :: (pad2 d.month ++ '-' :: pad2 d.day))
      = (pad4 d.year ++ []) :: [pad2 d.month, pad2 d.day] :=
    splitAny_block s4 (pad4 d.year) (pad4_not_sep hy)
  rw [List.append_nil] at s5
  exact s5

lemma inferDate_formatISO {y m dd : Nat} (hv : validYMD y m dd = true) :
    inferDate (formatISO ⟨y, m, dd⟩) = some ⟨y, m, dd⟩ := by
  obtain ⟨hy1, hy2, hm1, hm2, hd1, hd2⟩ := validYMD_bounds hv
  have hy : y < 10000 := by omega
  have hm : m < 100 := by omega
  have hd : dd < 100 := by omega
  unfold inferDate
  rw [splitAny_formatISO (d := ⟨y, m, dd⟩) hy hm hd]
  dsimp only
  rw [if_pos, if_pos]
  · rw [tokVal_pad4 hy, tokVal_pad2 hm, tokVal_pad2 hd]
  · rw [tokVal_pad4 hy, tokVal_pad2 hm, tokVal_pad2 hd]
    exact hv
  · rw [pad4_length, pad4_all_digits hy, dmTok_pad2 hm, dmTok_pad2 hd]
    rfl

/-- C8: date normalization is idempotent: a canonical ISO rendering of a
valid date re-normalizes to itself, and more generally every output of
the normalizer is a fixed point, so normalizing an already-canonical
string returns it unchanged. -/
theorem normalize_idempotent_spec :
    (∀ y m d : Nat, validYMD y m d = true →
      normalizeStr (formatISO ⟨y, m, d⟩) = some (formatISO ⟨y, m, d⟩)) ∧
    (∀ s t : List Char, normalizeStr s = some t → normalizeStr t = some t) := by
  have key : ∀ y m d : Nat, validYMD y m d = true →
      normalizeStr (formatISO ⟨y, m, d⟩) = some (formatISO ⟨y, m, d⟩) := by
    intro y m d hv
    unfold normalizeStr
    have hstd : standardizeDate (formatISO ⟨y, m, d⟩) = some ⟨y, m, d⟩ := by
      show formats.foldl _ (inferDate (formatISO ⟨y, m, d⟩)) = _
      rw [inferDate_formatISO hv]
      exact foldl_fill_some _ _
    rw [hstd]
    rfl
  refine ⟨key, ?_⟩
  intro s t h
  obtain ⟨d, hd, ht⟩ : ∃ d, standardizeDate s = some d ∧ t = formatISO d := by
    unfold normalizeStr at h
    cases hsd : standardizeDate s with
    | none =>
      rw [hsd] at h
      exact Option.noConfusion h
    | some d =>
      rw [hsd] at h
      exact ⟨d, rfl, (Option.some.inj h).symm⟩
  subst ht
  obtain ⟨yy, mm, ddd⟩ := d
  exact key yy mm ddd (standardizeDate_valid hd)

/-- Closed instance of C8 at a concrete canonical date string. -/
theorem normalize_idempotent_spec_witness :
    normalizeStr (formatISO ⟨1902, 3, 4⟩) = some (formatISO ⟨1902, 3, 4⟩) :=
  normalize_idempotent_spec.1 1902 3 4 (by decide)

end Strashun
